import Mathlib

/-!
Verification of the CProcessSpawnSync process-creation engine
(`Sources/CProcessSpawnSync/spawner.c` and
`Sources/CProcessSpawnSync/internal-helpers.h`) against its design
specification.  The C code is shallowly embedded: C `int` arithmetic is
modelled on `Int` with explicit 32-bit wrap-around where overflow can occur,
the process file-descriptor table is a finite list of slots, and the
OS primitives consumed by the spawner (reads from the error pipe, `fork`,
`pipe`, ...) are driven by explicit outcome oracles so that every control
path of the C code becomes a provable case.
-/

namespace SpawnSync

/-! ### The decimal parser (`internal-helpers.h`, `positive_int_parse`) -/

/-- 32-bit signed wrap-around: C `int` arithmetic modelled on unbounded `Int`.
`wrap32 n` is the representative of `n` in `[-2^31, 2^31)`. -/
def wrap32 (n : Int) : Int := (n + 2 ^ 31) % 2 ^ 32 - 2 ^ 31

/-- The digit test `c >= '0' && c <= '9'` of `positive_int_parse`
(C compares character codes numerically; 48 and 57 are the codes of
the characters for zero and nine). -/
def isDigitChar (c : Char) : Bool := 48 ≤ c.toNat && c.toNat ≤ 57

/-- The value `c - '0'` of a character code. -/
def digitVal (c : Char) : Int := (c.toNat : Int) - 48

/-- The loop of `positive_int_parse` (internal-helpers.h lines 23-30):
`out *= 10` happens before the digit test, any non-digit character returns
`-1` immediately, and the accumulator is a C `int`, hence the 32-bit wrap. -/
def positive_int_parse_go (out : Int) : List Char → Int
  | [] => out
  | c :: rest =>
    let out10 := wrap32 (out * 10)
    if isDigitChar c then positive_int_parse_go (wrap32 (out10 + digitVal c)) rest
    else -1

/-- `positive_int_parse` (internal-helpers.h lines 19-32): starts from
accumulator 0 and runs the loop over the characters of the string. -/
def positive_int_parse (s : List Char) : Int := positive_int_parse_go 0 s

/-- Exact decimal value of a digit string accumulated from `a`, without any
wrap-around: the spec-side reference value of a numeric entry name. -/
def decimalValFrom (a : Int) (s : List Char) : Int :=
  s.foldl (fun a c => a * 10 + digitVal c) a

/-- Exact decimal value of a digit string (spec-side reference value). -/
def decimalVal (s : List Char) : Int := decimalValFrom 0 s

/-! ### The file-descriptor table and the two-phase remapping
(`spawner.c`, `setup_and_execve_child`, lines 93-132)

A process file-descriptor table is a finite list of slots: slot `n` holds
`some e` when descriptor `n` is open on the open-file description `e.obj`
(an abstract identifier; duplicated descriptors share it) with close-on-exec
flag `e.cloexec`, and `none` when descriptor `n` is closed.  Slots beyond the
end of the list are closed. -/

inductive FdKind
  | map
  | close
deriving DecidableEq

/-- One `ps_fd_setup` instruction: `PS_MAP_FD parent_fd` or `PS_CLOSE_FD`
(the parent-fd field is ignored for `close`). -/
structure FdSetup where
  psfd_kind : FdKind
  psfd_parent_fd : Nat
deriving DecidableEq

/-- An open-file-table entry: the shared open-file description and the
descriptor's close-on-exec flag. -/
structure FdEntry where
  obj : Nat
  cloexec : Bool
deriving DecidableEq

abbrev FdTable := List (Option FdEntry)

/-- Look up descriptor `n` in the table; descriptors past the end are closed. -/
def fdGet : FdTable → Nat → Option FdEntry
  | [], _ => none
  | e :: _, 0 => e
  | _ :: t, n + 1 => fdGet t n

/-- Write slot `n` of the table, extending it with closed slots as needed. -/
def fdSet : FdTable → Nat → Option FdEntry → FdTable
  | [], 0, v => [v]
  | [], n + 1, v => none :: fdSet [] n v
  | _ :: t, 0, v => v :: t
  | e :: t, n + 1, v => e :: fdSet t n v

/-- Scan for the lowest closed descriptor number starting at `n`; `fuel`
bounds the scan (a table of length `L` has every slot `≥ L` closed, so fuel
`L` always suffices). -/
def lowestFreeAux (t : FdTable) : Nat → Nat → Nat
  | n, 0 => n
  | n, fuel + 1 =>
    match fdGet t n with
    | none => n
    | some _ => lowestFreeAux t (n + 1) fuel

/-- The `F_DUPFD` allocation rule: the lowest descriptor number `≥ minfd`
that is closed in `t`. -/
def lowestFree (t : FdTable) (minfd : Nat) : Nat := lowestFreeAux t minfd t.length

/-- Phase A of `setup_and_execve_child` (spawner.c lines 93-111): for each
instruction, `PS_MAP_FD` duplicates the parent descriptor via
`fcntl(parent_fd, F_DUPFD_CLOEXEC, psc_fd_setup_count)` — the duplicate is
placed at the lowest free descriptor `≥ count`, shares the open-file
description, and has close-on-exec set — and records the duplicate in the
scratch slot; `PS_CLOSE_FD` records `none` (the C `-1`).  A failing
duplication (parent descriptor closed) aborts with an error (`none`). -/
def phaseA : List FdSetup → FdTable → Nat → Option (FdTable × List (Option Nat))
  | [], t, _ => some (t, [])
  | ⟨FdKind.map, pfd⟩ :: rest, t, count =>
    match fdGet t pfd with
    | none => none
    | some entry =>
      let d := lowestFree t count
      match phaseA rest (fdSet t d (some ⟨entry.obj, true⟩)) count with
      | none => none
      | some (t1, sc) => some (t1, some d :: sc)
  | ⟨FdKind.close, _⟩ :: rest, t, count =>
    match phaseA rest t count with
    | none => none
    | some (t1, sc) => some (t1, none :: sc)

/-- Phase B of `setup_and_execve_child` (spawner.c lines 113-132): for the
instruction at child index `idx`, `PS_MAP_FD` first checks the precondition
`duplicated_fd > child_fd` (`__builtin_trap` otherwise, modelled as `none`),
then `dup2(duplicated_fd, child_fd)` places a copy — close-on-exec clear —
at `child_fd`, closing whatever occupied it; `PS_CLOSE_FD` checks the
scratch slot is `none` and closes `child_fd`.  `dup2` on a closed source
descriptor fails (`none`). -/
def phaseB : List FdSetup → List (Option Nat) → FdTable → Nat → Option FdTable
  | [], _, t, _ => some t
  | _ :: _, [], _, _ => none
  | ⟨FdKind.map, _⟩ :: rest, sc0 :: scs, t, idx =>
    match sc0 with
    | some d =>
      if d ≤ idx then none
      else
        match fdGet t d with
        | none => none
        | some entry => phaseB rest scs (fdSet t idx (some ⟨entry.obj, false⟩)) (idx + 1)
    | none => none
  | ⟨FdKind.close, _⟩ :: rest, sc0 :: scs, t, idx =>
    match sc0 with
    | some _ => none
    | none => phaseB rest scs (fdSet t idx none) (idx + 1)

/-! ### The fd census (`internal-helpers.h`, lines 34-117) and the
close-unmanaged-descriptors loop (`spawner.c`, lines 134-140) -/

/-- Highest open slot of the table suffix `t`, whose first slot has absolute
descriptor number `i` (0 when no slot is open). -/
def censusFrom : FdTable → Nat → Nat
  | [], _ => 0
  | none :: t, i => censusFrom t (i + 1)
  | some _ :: t, i => max i (censusFrom t (i + 1))

/-- The fd census of a table: the highest descriptor currently open, 0 when
none is.  This is the value the census reports when the fd-directory listing
is available: the directory holds one decimal entry per open descriptor. -/
def censusOf (t : FdTable) : Nat := censusFrom t 0

/-- The close-unmanaged-descriptors loop of `setup_and_execve_child`
(spawner.c lines 134-140):
`for (i = count; i < highest_possibly_open_fd(); i++) if (i != error_pipe) close(i);`.
The census is re-evaluated on every iteration, as the C `for` condition is;
`fuel` bounds the iteration count (the census never grows while the loop
closes descriptors strictly below it, so `censusOf t + 1` always suffices). -/
def closeLoop : FdTable → Nat → Nat → Nat → FdTable
  | t, _, _, 0 => t
  | t, errPipe, i, fuel + 1 =>
    if i < censusOf t then
      closeLoop (if i = errPipe then t else fdSet t i none) errPipe (i + 1) fuel
    else t

/-- The `psc_close_other_fds` step: run the loop from `count` with enough
fuel. -/
def closeOtherFds (t : FdTable) (count errPipe : Nat) : FdTable :=
  closeLoop t errPipe count (censusOf t + 1)

/-- `highest_possibly_open_fd_dir` (internal-helpers.h lines 34-52) over an
abstract directory listing: `none` models `opendir` failing (return -1);
`some entries` is the sequence of entry names `readdir` yields (the "." and
".." entries included).  Every name is parsed and a strictly greater value
replaces the running maximum, which starts at 0. -/
def highest_possibly_open_fd_dir (listing : Option (List (List Char))) : Int :=
  match listing with
  | none => -1
  | some entries =>
    entries.foldl
      (fun hi name =>
        let number := positive_int_parse name
        if number > hi then number else hi)
      0

/-- `highest_possibly_open_fd_dir_linux` (internal-helpers.h lines 57-98)
over the same abstract listing (the `getdents64` chunking is an I/O detail:
the loop visits each entry name once): identical to the generic walk except
that entry names whose first byte is a dot (code 46) are skipped before
parsing. -/
def highest_possibly_open_fd_dir_linux (listing : Option (List (List Char))) : Int :=
  match listing with
  | none => -1
  | some entries =>
    entries.foldl
      (fun hi name =>
        match name with
        | c :: _ =>
          if c.toNat = 46 then hi
          else
            let number := positive_int_parse name
            if number > hi then number else hi
        | [] =>
          let number := positive_int_parse name
          if number > hi then number else hi)
      0

/-- Spec-side census value ("enumerate entries whose names parse as
non-negative decimal integers ..., track the maximum"): the maximum of 0 and
the non-negative parser results over all entry names, -1 when the directory
cannot be opened. -/
def censusSpec (listing : Option (List (List Char))) : Int :=
  match listing with
  | none => -1
  | some entries =>
    ((entries.map positive_int_parse).filter (fun n => decide (0 ≤ n))).foldl max 0

/-- The compile-time platform selection in `highest_possibly_open_fd`
(internal-helpers.h lines 101-117). -/
inductive OsPlatform
  | apple
  | linux
  | generic
deriving DecidableEq

/-- `highest_possibly_open_fd`: on Apple the generic walk of "/dev/fd" with
`getdtablesize()` fallback when it reports failure, on Linux the raw-read
walk of "/proc/self/fd" with the same fallback, and the constant 1024 on
platforms with no introspection mechanism. -/
def highest_possibly_open_fd (plat : OsPlatform) (listing : Option (List (List Char)))
    (dtablesize : Nat) : Int :=
  match plat with
  | .apple =>
    let hi := highest_possibly_open_fd_dir listing
    if hi < 0 then (dtablesize : Int) else hi
  | .linux =>
    let hi := highest_possibly_open_fd_dir_linux listing
    if hi < 0 then (dtablesize : Int) else hi
  | .generic => 1024

/-! ### Signals: the pre-fork guard mask (`internal-helpers.h` lines
119-135) and the child's disposition reset (`spawner.c` lines 59-75) -/

/-- Signal numbers (Linux numbering) for the constants the code names. -/
def SIGABRT : Nat := 6

def SIGBUS : Nat := 7

def SIGFPE : Nat := 8

def SIGILL : Nat := 4

def SIGKILL : Nat := 9

def SIGSEGV : Nat := 11

def SIGSTOP : Nat := 19

def SIGSYS : Nat := 31

def SIGTRAP : Nat := 5

/-- A signal set as its characteristic function. -/
def SigSet := Nat → Bool

def sigfillset : SigSet := fun _ => true

def sigdelset (m : SigSet) (s : Nat) : SigSet := fun x => if x = s then false else m x

/-- The nine allow-listed signals, in the order the code deletes them. -/
def seriouslyWrongSignals : List Nat :=
  [SIGABRT, SIGBUS, SIGFPE, SIGILL, SIGKILL, SIGSEGV, SIGSTOP, SIGSYS, SIGTRAP]

/-- The mask built by
`block_everything_but_something_went_seriously_wrong_signals`: fill
everything, then delete each of the nine allow-listed signals. -/
def seriousMask : SigSet :=
  sigdelset (sigdelset (sigdelset (sigdelset (sigdelset (sigdelset (sigdelset (sigdelset
    (sigdelset sigfillset SIGABRT) SIGBUS) SIGFPE) SIGILL) SIGKILL) SIGSEGV) SIGSTOP)
    SIGSYS) SIGTRAP

/-- Per-call failure flags for the eleven primitives invoked by the guard:
`sigfillset`, the nine `sigdelset`s (indexed by the deleted signal number),
and `pthread_sigmask`.  In C each returns 0 on success and -1 on failure and
the code ORs them into `r`; a flag is `true` when that call fails. -/
structure SigGuardCalls where
  fillFail : Bool
  delFail : Nat → Bool
  maskFail : Bool

/-- Result of the guard: the returned failure indicator (`true` for a
nonzero `r`), the calling thread's blocked set afterwards, and what was
stored into `*old_mask` (`none` when nothing was stored). -/
structure SigGuardResult where
  ret : Bool
  blocked : SigSet
  oldSlot : Option SigSet

/-- `pthread_sigmask(SIG_BLOCK, mask, old)` semantics: the new blocked set
is the union of the current one and the mask. -/
def sigBlockUnion (cur mask : SigSet) : SigSet := fun s => cur s || mask s

/-- `block_everything_but_something_went_seriously_wrong_signals`
(internal-helpers.h lines 119-135) on a thread whose blocked set is `cur`.
The set-construction primitives are modelled as total (in C they can fail
only on invalid signal arguments; their return codes are ORed into `r`
exactly as the code does, taken from the oracle); a failing
`pthread_sigmask` installs nothing and stores nothing. -/
def block_everything_but_something_went_seriously_wrong_signals
    (cur : SigSet) (calls : SigGuardCalls) : SigGuardResult :=
  let r := calls.fillFail || calls.delFail SIGABRT || calls.delFail SIGBUS ||
    calls.delFail SIGFPE || calls.delFail SIGILL || calls.delFail SIGKILL ||
    calls.delFail SIGSEGV || calls.delFail SIGSTOP || calls.delFail SIGSYS ||
    calls.delFail SIGTRAP || calls.maskFail
  if calls.maskFail then
    { ret := r, blocked := cur, oldSlot := none }
  else
    { ret := r, blocked := sigBlockUnion cur seriousMask, oldSlot := some cur }

/-- `PS_SIG_MAX` (spawner.c lines 36-40): the `__apple__` macro (lowercase)
is not a compiler-defined macro, so the fallback value 32 is used. -/
def PS_SIG_MAX : Nat := 32

/-- Modelled from the spec: the numeric values of the `ps_error_kind` enum
are declared in `ps-api.h`, which is not among these sources.  The spec
fixes the taxonomy (§7), and the `error_cleanup` precondition
`(!out_error) || (out_error->pse_kind != 0)` requires every reported kind to
differ from the 0 "no error" sentinel, so the kinds are modelled as
distinct nonzero codes. -/
def PS_ERROR_KIND_EXECVE : Nat := 1

def PS_ERROR_KIND_PIPE : Nat := 2

def PS_ERROR_KIND_FCNTL : Nat := 3

def PS_ERROR_KIND_SIGMASK_THREAD : Nat := 4

def PS_ERROR_KIND_SIGNAL : Nat := 5

def PS_ERROR_KIND_SIGPROC_MASK : Nat := 6

def PS_ERROR_KIND_SETSID : Nat := 7

def PS_ERROR_KIND_DUP : Nat := 8

def PS_ERROR_KIND_DUP2 : Nat := 9

def PS_ERROR_KIND_CHDIR : Nat := 10

def PS_ERROR_KIND_READ_FROM_CHILD : Nat := 11

/-- A `ps_error` record: kind, saved `errno`, and the extra-info integer
carrying a signal number or instruction index.  The source-location fields
(`pse_file`, `pse_line`), pure diagnostics, are not modelled. -/
structure PsError where
  pse_kind : Nat
  pse_code : Nat
  pse_extra_info : Nat
deriving DecidableEq

/-- Outcome of one `signal(signo, SIG_DFL)` call: success (not `SIG_ERR`),
rejection with `errno == EINVAL`, or rejection with another error code. -/
inductive SigCallRes
  | ok
  | errInval
  | errOther (code : Nat)
deriving DecidableEq

/-- The signal-disposition reset loop of `setup_and_execve_child`
(spawner.c lines 59-75), driven by an oracle giving each
`signal(signo, SIG_DFL)` call's outcome.  `signo` runs from 1 while
`signo < PS_SIG_MAX` (`rem` counts the remaining iterations); `SIGKILL` and
`SIGSTOP` are skipped; a rejection with `EINVAL` stops the scan early with
no error; any other rejection reports a `PS_ERROR_KIND_SIGNAL` error
carrying the offending signal number and its error code.  The success value
is the list of signals whose disposition was reset. -/
def resetFrom (oracle : Nat → SigCallRes) : Nat → Nat → Except PsError (List Nat)
  | _, 0 => .ok []
  | signo, rem + 1 =>
    if signo = SIGKILL ∨ signo = SIGSTOP then resetFrom oracle (signo + 1) rem
    else
      match oracle signo with
      | .ok =>
        match resetFrom oracle (signo + 1) rem with
        | .ok l => .ok (signo :: l)
        | .error e => .error e
      | .errInval => .ok []
      | .errOther code =>
        .error { pse_kind := PS_ERROR_KIND_SIGNAL, pse_code := code, pse_extra_info := signo }

/-- The whole reset loop: `for (signo = 1; signo < PS_SIG_MAX; signo++)`. -/
def resetSignals (oracle : Nat → SigCallRes) : Except PsError (List Nat) :=
  resetFrom oracle 1 (PS_SIG_MAX - 1)

/-! ### The spawn orchestrator (`spawner.c`, `ps_spawn_process`,
lines 164-268) -/

/-- An event observed by one `read` call on the error pipe: `ok len rec` is
a successful read of `len` bytes whose payload (when complete) is the record
`rec`; `err eintr code` is a failing read with `errno = code`, `eintr`
marking `errno == EINTR`. -/
inductive ReadEvent
  | ok (len : Nat) (rec : PsError)
  | err (eintr : Bool) (code : Nat)
deriving DecidableEq

/-- Outcome of `fork()` as seen by the process that keeps running
`ps_spawn_process`: failure with an `errno`, or the parent branch holding
the child's pid.  (A return of 0 selects the child branch, which never
returns to the caller: it runs `setup_and_execve_child` and then
`abort()`.) -/
inductive ForkRes
  | fail (code : Nat)
  | parent (pid : Nat)
deriving DecidableEq

/-- Outcomes of the OS primitives consumed by one `ps_spawn_process` call:
`none` means success for the four fallible setup calls, `some code` failure
with that `errno`. -/
structure OsOutcomes where
  pipeErr : Option Nat
  fcntlErr : Option Nat
  guardErr : Option Nat
  forkRes : ForkRes
  restoreErr : Option Nat
  readEvents : List ReadEvent
deriving DecidableEq

/-- What one `ps_spawn_process` call does, observably: `ret v slot` — the
function returns `v` with the caller's error slot finally holding `slot`
(`none` = never written); `trap` — a `ps_precondition` failed
(`__builtin_trap`); `blocked` — the event trace ran out while the drain
loop was still waiting on `read` (a model artifact, not a C outcome). -/
inductive SpawnResult
  | ret (v : Nat) (slot : Option PsError)
  | trap
  | blocked
deriving DecidableEq

/-- The `error_cleanup` tail of `ps_spawn_process` (spawner.c lines
258-267): after closing the pipe ends and freeing the scratch array, the
precondition `(!out_error) || (out_error->pse_kind != 0)` traps, otherwise
0 is returned.  `e` is the error the failing path stored in `*out_error`
(observable only when the caller supplied a slot). -/
def errorCleanup (hasOut : Bool) (e : PsError) : SpawnResult :=
  if hasOut = true ∧ e.pse_kind = 0 then .trap
  else .ret 0 (if hasOut = true then some e else none)

/-- The drain loop of the parent branch (spawner.c lines 224-248), reading
the error pipe with record size `recSize = sizeof(ps_error)`: a zero-length
read returns `pid`; a positive read must be one full record
(`ps_precondition`, trap otherwise) whose payload goes to `*out_error` and
`error_cleanup`; a failure with `EINTR` retries; any other failure reports
`PS_ERROR_KIND_READ_FROM_CHILD`. -/
def drainLoop (recSize pid : Nat) (hasOut : Bool) : List ReadEvent → SpawnResult
  | [] => .blocked
  | .ok 0 _ :: _ => .ret pid none
  | .ok (len + 1) rec :: _ =>
    if len + 1 = recSize then errorCleanup hasOut rec else .trap
  | .err true _ :: rest => drainLoop recSize pid hasOut rest
  | .err false code :: _ =>
    errorCleanup hasOut
      { pse_kind := PS_ERROR_KIND_READ_FROM_CHILD, pse_code := code, pse_extra_info := 0 }

/-- `ps_spawn_process` (spawner.c lines 164-268) as a function of the OS
outcomes: `pipe`, then `fcntl(F_SETFD, FD_CLOEXEC)`, then the signal guard,
then `fork`; in the non-child branch the signal-mask restoration runs
before the pid is inspected, a failed fork reports an error (the code
reuses `PS_ERROR_KIND_FCNTL` for it), and a positive pid drains the error
pipe.  `recSize` is `sizeof(ps_error)`; `hasOut` says whether the caller
supplied `out_error`. -/
def ps_spawn_process (recSize : Nat) (o : OsOutcomes) (hasOut : Bool) : SpawnResult :=
  match o.pipeErr with
  | some code =>
    errorCleanup hasOut
      { pse_kind := PS_ERROR_KIND_PIPE, pse_code := code, pse_extra_info := 0 }
  | none =>
  match o.fcntlErr with
  | some code =>
    errorCleanup hasOut
      { pse_kind := PS_ERROR_KIND_FCNTL, pse_code := code, pse_extra_info := 0 }
  | none =>
  match o.guardErr with
  | some code =>
    errorCleanup hasOut
      { pse_kind := PS_ERROR_KIND_SIGMASK_THREAD, pse_code := code, pse_extra_info := 0 }
  | none =>
  match o.restoreErr with
  | some code =>
    errorCleanup hasOut
      { pse_kind := PS_ERROR_KIND_SIGMASK_THREAD, pse_code := code, pse_extra_info := 0 }
  | none =>
  match o.forkRes with
  | .fail code =>
    errorCleanup hasOut
      { pse_kind := PS_ERROR_KIND_FCNTL, pse_code := code, pse_extra_info := 0 }
  | .parent pid =>
    if 0 < pid then drainLoop recSize pid hasOut o.readEvents
    else
      errorCleanup hasOut
        { pse_kind := PS_ERROR_KIND_FCNTL, pse_code := 0, pse_extra_info := 0 }

/-- An oracle whose whole setup succeeds: only the drain loop's events
remain. -/
def okOracle (pid : Nat) (events : List ReadEvent) : OsOutcomes :=
  { pipeErr := none, fcntlErr := none, guardErr := none,
    forkRes := ForkRes.parent pid, restoreErr := none, readEvents := events }

/-! ### The exit-status decoder (`spawner.c`, `ps_convert_exit_status`,
lines 270-284) -/

/-- Modelled from the spec: the status-word predicates (`WIFEXITED`,
`WIFSIGNALED`, `WTERMSIG`, `WEXITSTATUS`) are C-library macros, not part of
these sources; they are modelled by the standard wait-status encoding — low
7 bits 0 for a normal exit whose code is the next 8 bits; low 7 bits in
1..126 for termination by that signal; low 7 bits 127 for a stopped or
continued (not exited) status. -/
def WIFEXITED (s : Nat) : Bool := s % 128 == 0

def WTERMSIG (s : Nat) : Nat := s % 128

def WIFSIGNALED (s : Nat) : Bool := decide (1 ≤ s % 128) && decide (s % 128 ≤ 126)

def WEXITSTATUS (s : Nat) : Nat := (s / 256) % 256

/-- The decoded triple `(has-exited, is-exit-code, value)`. -/
structure ExitStatusTriple where
  has_exited : Bool
  is_exit_code : Bool
  code : Int
deriving DecidableEq

/-- `ps_convert_exit_status` (spawner.c lines 270-284), the three `out`
parameters gathered into a record. -/
def ps_convert_exit_status (in_status : Nat) : ExitStatusTriple :=
  if WIFEXITED in_status then
    { has_exited := true, is_exit_code := true, code := (WEXITSTATUS in_status : Int) }
  else if WIFSIGNALED in_status then
    { has_exited := true, is_exit_code := false, code := (WTERMSIG in_status : Int) }
  else
    { has_exited := false, is_exit_code := false, code := -1 }

theorem digitVal_bounds {c : Char} (h : isDigitChar c = true) :
    0 ≤ digitVal c ∧ digitVal c ≤ 9 := by
  simp only [isDigitChar, Bool.and_eq_true, decide_eq_true_eq] at h
  unfold digitVal
  omega

theorem decimalValFrom_cons (a : Int) (c : Char) (s : List Char) :
    decimalValFrom a (c :: s) = decimalValFrom (a * 10 + digitVal c) s := rfl

theorem le_decimalValFrom (s : List Char) :
    ∀ a : Int, 0 ≤ a → (∀ c ∈ s, isDigitChar c = true) →
      a ≤ decimalValFrom a s := by
  induction s with
  | nil => intro a _ _; exact le_refl a
  | cons c rest ih =>
    intro a ha hdig
    have hc := digitVal_bounds (hdig c (List.mem_cons_self c rest))
    have ha' : 0 ≤ a * 10 + digitVal c := by omega
    have step : a ≤ a * 10 + digitVal c := by omega
    have := ih (a * 10 + digitVal c) ha' (fun x hx => hdig x (List.mem_cons_of_mem c hx))
    rw [decimalValFrom_cons]
    omega

theorem wrap32_eq_self {n : Int} (h0 : 0 ≤ n) (h1 : n < 2 ^ 31) : wrap32 n = n := by
  unfold wrap32
  omega

theorem positive_int_parse_go_digits (s : List Char) :
    ∀ a : Int, 0 ≤ a → (∀ c ∈ s, isDigitChar c = true) →
      decimalValFrom a s < 2 ^ 31 → positive_int_parse_go a s = decimalValFrom a s := by
  induction s with
  | nil => intro a _ _ _; rfl
  | cons c rest ih =>
    intro a ha hdig hbound
    have hc : isDigitChar c = true := hdig c (List.mem_cons_self c rest)
    have hcb := digitVal_bounds hc
    have ha' : 0 ≤ a * 10 + digitVal c := by omega
    have hrest : ∀ x ∈ rest, isDigitChar x = true :=
      fun x hx => hdig x (List.mem_cons_of_mem c hx)
    rw [decimalValFrom_cons] at hbound ⊢
    have hle : a * 10 + digitVal c ≤ decimalValFrom (a * 10 + digitVal c) rest :=
      le_decimalValFrom rest _ ha' hrest
    have h10 : wrap32 (a * 10) = a * 10 := wrap32_eq_self (by omega) (by omega)
    have hsum : wrap32 (a * 10 + digitVal c) = a * 10 + digitVal c :=
      wrap32_eq_self ha' (by omega)
    simp only [positive_int_parse_go, hc, if_true, h10, hsum]
    exact ih _ ha' hrest hbound

theorem positive_int_parse_go_nondigit (s : List Char) :
    ∀ a : Int, (∃ c ∈ s, isDigitChar c = false) → positive_int_parse_go a s = -1 := by
  induction s with
  | nil => intro a h; obtain ⟨c, hc, _⟩ := h; cases hc
  | cons c rest ih =>
    intro a h
    by_cases hc : isDigitChar c = true
    · obtain ⟨x, hx, hxd⟩ := h
      rcases List.mem_cons.mp hx with rfl | hx'
      · rw [hc] at hxd; cases hxd
      · simp only [positive_int_parse_go, hc, if_true]
        exact ih _ ⟨x, hx', hxd⟩
    · simp [positive_int_parse_go, hc]

set_option maxRecDepth 4000 in
/-- Claim C4 (as frozen) is false on the code: `positive_int_parse` returns 0,
not the invalid sentinel -1, on the empty string (the C loop body never runs
and the initial accumulator 0 is returned), and a ten-digit string overflows
the 32-bit accumulator, so its numeric value is not returned either. -/
theorem claim_c4_counterexample :
    positive_int_parse [] = 0 ∧ (0 : Int) ≠ -1 ∧
      positive_int_parse ['9', '9', '9', '9', '9', '9', '9', '9', '9', '9'] ≠
        decimalVal ['9', '9', '9', '9', '9', '9', '9', '9', '9', '9'] := by
  refine ⟨rfl, by decide, by decide⟩

/-- Claim C4 (amended): for every string composed solely of decimal digits
whose exact numeric value fits below `2^31`, the parser returns that numeric
value; for every string containing a non-digit character anywhere (including
a leading sign or whitespace) it returns the invalid sentinel -1; the empty
string returns 0 (not -1).  Digit strings with value `≥ 2^31` are subject to
the parser's 32-bit wrap-around and are not covered. -/
theorem claim_c4 : ∀ s : List Char,
    ((∀ c ∈ s, isDigitChar c = true) → decimalVal s < 2 ^ 31 →
      positive_int_parse s = decimalVal s)
    ∧ ((∃ c ∈ s, isDigitChar c = false) → positive_int_parse s = -1)
    ∧ positive_int_parse [] = 0 := by
  intro s
  refine ⟨fun hdig hb => ?_, fun hnd => ?_, rfl⟩
  · exact positive_int_parse_go_digits s 0 le_rfl hdig hb
  · exact positive_int_parse_go_nondigit s 0 hnd

/-- Witness for C4: the parser evaluated on concrete inputs through the
amended theorem. -/
theorem claim_c4_witness :
    positive_int_parse ['5', '7'] = 57 ∧ positive_int_parse ['+', '1'] = -1 := by
  constructor
  · have h := (claim_c4 ['5', '7']).1 (by decide) (by decide)
    rw [h]; decide
  · exact (claim_c4 ['+', '1']).2.1 (by decide)

theorem fdGet_nil (n : Nat) : fdGet [] n = none := by cases n <;> rfl

theorem fdGet_of_length_le : ∀ (t : FdTable) (n : Nat), t.length ≤ n → fdGet t n = none := by
  intro t
  induction t with
  | nil => intro n _; exact fdGet_nil n
  | cons e t ih =>
    intro n h
    cases n with
    | zero => simp at h
    | succ n => exact ih n (by simpa using h)

theorem fdGet_fdSet_self : ∀ (t : FdTable) (n : Nat) (v : Option FdEntry),
    fdGet (fdSet t n v) n = v := by
  intro t n
  induction n generalizing t with
  | zero => intro v; cases t <;> rfl
  | succ n ih =>
    intro v
    cases t with
    | nil => simpa [fdSet, fdGet] using ih [] v
    | cons e t => simpa [fdSet, fdGet] using ih t v

theorem fdGet_fdSet_ne : ∀ (t : FdTable) (m n : Nat) (v : Option FdEntry), m ≠ n →
    fdGet (fdSet t m v) n = fdGet t n := by
  intro t m
  induction m generalizing t with
  | zero =>
    intro n v h
    cases t with
    | nil =>
      cases n with
      | zero => exact absurd rfl h
      | succ n => simp [fdSet, fdGet, fdGet_nil]
    | cons e t =>
      cases n with
      | zero => exact absurd rfl h
      | succ n => rfl
  | succ m ih =>
    intro n v h
    cases t with
    | nil =>
      cases n with
      | zero => rfl
      | succ n =>
        have : fdGet (fdSet [] m v) n = fdGet [] n := ih [] n v (by omega)
        simpa [fdSet, fdGet, fdGet_nil] using this
    | cons e t =>
      cases n with
      | zero => rfl
      | succ n => simpa [fdSet, fdGet] using ih t n v (by omega)

theorem le_lowestFreeAux (t : FdTable) : ∀ (fuel n : Nat), n ≤ lowestFreeAux t n fuel := by
  intro fuel
  induction fuel with
  | zero => intro n; exact le_refl n
  | succ fuel ih =>
    intro n
    cases h : fdGet t n with
    | none => simp [lowestFreeAux, h]
    | some e =>
      simp only [lowestFreeAux, h]
      exact le_trans (Nat.le_succ n) (ih (n + 1))

theorem lowestFreeAux_free (t : FdTable) : ∀ (fuel n : Nat), t.length ≤ n + fuel →
    fdGet t (lowestFreeAux t n fuel) = none := by
  intro fuel
  induction fuel with
  | zero =>
    intro n h
    exact fdGet_of_length_le t n (by omega)
  | succ fuel ih =>
    intro n h
    cases hn : fdGet t n with
    | none => simp [lowestFreeAux, hn]
    | some e =>
      simp only [lowestFreeAux, hn]
      exact ih (n + 1) (by omega)

theorem le_lowestFree (t : FdTable) (minfd : Nat) : minfd ≤ lowestFree t minfd :=
  le_lowestFreeAux t t.length minfd

theorem lowestFree_free (t : FdTable) (minfd : Nat) : fdGet t (lowestFree t minfd) = none :=
  lowestFreeAux_free t t.length minfd (by omega)

/-- Phase A invariants: the scratch list is as long as the instruction list;
phase A never touches an open descriptor (it writes only to free slots); a
`map` instruction at index `j` records a duplicate descriptor `d ≥ count`
that is open with close-on-exec set and carries the open-file description the
parent descriptor had when phase A started; a `close` instruction records
`none`. -/
theorem phaseA_spec (cnt : Nat) (t1 : FdTable) :
    ∀ (instrs : List FdSetup) (t : FdTable) (sc : List (Option Nat)),
    phaseA instrs t cnt = some (t1, sc) →
    sc.length = instrs.length
    ∧ (∀ fd e, fdGet t fd = some e → fdGet t1 fd = some e)
    ∧ (∀ j pfd, instrs.get? j = some ⟨FdKind.map, pfd⟩ →
        ∃ d, sc.get? j = some (some d) ∧ cnt ≤ d
          ∧ (∃ o, fdGet t1 d = some ⟨o, true⟩)
          ∧ (∀ e, fdGet t pfd = some e → fdGet t1 d = some ⟨e.obj, true⟩))
    ∧ (∀ j pfd, instrs.get? j = some ⟨FdKind.close, pfd⟩ → sc.get? j = some none) := by
  intro instrs
  induction instrs with
  | nil =>
    intro t sc h
    simp only [phaseA, Option.some.injEq, Prod.mk.injEq] at h
    obtain ⟨rfl, rfl⟩ := h
    refine ⟨rfl, fun fd e he => he, fun j pfd hj => ?_, fun j pfd hj => ?_⟩
    · rw [List.get?_nil] at hj; cases hj
    · rw [List.get?_nil] at hj; cases hj
  | cons s rest ih =>
    obtain ⟨k, pfd₀⟩ := s
    intro t sc h
    cases k with
    | map =>
      cases h0 : fdGet t pfd₀ with
      | none => simp [phaseA, h0] at h
      | some entry =>
        have hfree : fdGet t (lowestFree t cnt) = none := lowestFree_free t cnt
        cases hrec : phaseA rest (fdSet t (lowestFree t cnt) (some ⟨entry.obj, true⟩)) cnt with
        | none => simp [phaseA, h0, hrec] at h
        | some p =>
          obtain ⟨t1', sc'⟩ := p
          simp only [phaseA, h0, hrec, Option.some.injEq, Prod.mk.injEq] at h
          obtain ⟨rfl, rfl⟩ := h
          obtain ⟨L, P, M, C⟩ := ih _ _ hrec
          refine ⟨by simp [L], ?_, ?_, ?_⟩
          · intro fd e hfd
            have hne : lowestFree t cnt ≠ fd := by
              intro heq
              rw [← heq, hfree] at hfd
              cases hfd
            exact P fd e (by rw [fdGet_fdSet_ne t _ fd _ hne]; exact hfd)
          · intro j pfd hj
            cases j with
            | zero =>
              have hj' : FdSetup.mk FdKind.map pfd₀ = ⟨FdKind.map, pfd⟩ := by
                simpa using hj
              have hpfd : pfd = pfd₀ := by cases hj'; rfl
              subst hpfd
              refine ⟨lowestFree t cnt, rfl, le_lowestFree t cnt, ?_, ?_⟩
              · exact ⟨entry.obj, P _ _ (fdGet_fdSet_self t _ _)⟩
              · intro e he
                rw [h0] at he
                cases he
                exact P _ _ (fdGet_fdSet_self t _ _)
            | succ j =>
              have hj' : rest.get? j = some ⟨FdKind.map, pfd⟩ := hj
              obtain ⟨d, hsc, hcnt, hex, hcond⟩ := M j pfd hj'
              refine ⟨d, hsc, hcnt, hex, fun e he => ?_⟩
              have hne : lowestFree t cnt ≠ pfd := by
                intro heq
                rw [← heq, hfree] at he
                cases he
              exact hcond e (by rw [fdGet_fdSet_ne t _ pfd _ hne]; exact he)
          · intro j pfd hj
            cases j with
            | zero => simp at hj
            | succ j => exact C j pfd hj
    | close =>
      cases hrec : phaseA rest t cnt with
      | none => simp [phaseA, hrec] at h
      | some p =>
        obtain ⟨t1', sc'⟩ := p
        simp only [phaseA, hrec, Option.some.injEq, Prod.mk.injEq] at h
        obtain ⟨rfl, rfl⟩ := h
        obtain ⟨L, P, M, C⟩ := ih _ _ hrec
        refine ⟨by simp [L], P, ?_, ?_⟩
        · intro j pfd hj
          cases j with
          | zero => simp at hj
          | succ j => exact M j pfd hj
        · intro j pfd hj
          cases j with
          | zero => rfl
          | succ j => exact C j pfd hj

/-- Phase B invariants: if every `map` scratch slot holds an open duplicate
`≥ count` and every `close` slot holds `none` (what phase A guarantees), then
phase B succeeds; it only writes child indices `idx .. idx + instrs.length`,
places at child index `idx + j` a close-on-exec-clear copy of the open-file
description held by the `map` duplicate recorded for `j`, and closes child
index `idx + j` for each `close` instruction. -/
theorem phaseB_spec (cnt : Nat) :
    ∀ (instrs : List FdSetup) (sc : List (Option Nat)) (t : FdTable) (idx : Nat),
    sc.length = instrs.length →
    idx + instrs.length ≤ cnt →
    (∀ j pfd, instrs.get? j = some ⟨FdKind.map, pfd⟩ →
      ∃ d, sc.get? j = some (some d) ∧ cnt ≤ d ∧ ∃ o, fdGet t d = some ⟨o, true⟩) →
    (∀ j pfd, instrs.get? j = some ⟨FdKind.close, pfd⟩ → sc.get? j = some none) →
    ∃ t2, phaseB instrs sc t idx = some t2
      ∧ (∀ fd, fd < idx ∨ idx + instrs.length ≤ fd → fdGet t2 fd = fdGet t fd)
      ∧ (∀ j pfd d o c, instrs.get? j = some ⟨FdKind.map, pfd⟩ →
          sc.get? j = some (some d) → fdGet t d = some ⟨o, c⟩ →
          fdGet t2 (idx + j) = some ⟨o, false⟩)
      ∧ (∀ j pfd, instrs.get? j = some ⟨FdKind.close, pfd⟩ → fdGet t2 (idx + j) = none) := by
  intro instrs
  induction instrs with
  | nil =>
    intro sc t idx _ _ _ _
    refine ⟨t, ?_, fun fd _ => rfl, fun j pfd d o c hj _ _ => ?_, fun j pfd hj => ?_⟩
    · cases sc <;> rfl
    · rw [List.get?_nil] at hj; cases hj
    · rw [List.get?_nil] at hj; cases hj
  | cons s rest ih =>
    obtain ⟨k, pfd₀⟩ := s
    intro sc t idx hlen hbound hmap hclose
    cases sc with
    | nil => simp at hlen
    | cons sc0 scs =>
      have hlen' : scs.length = rest.length := by simpa using hlen
      have hb : idx + rest.length + 1 ≤ cnt := by
        simp only [List.length_cons] at hbound
        omega
      cases k with
      | map =>
        obtain ⟨d, hsc0, hcntd, o₀, ho₀⟩ := hmap 0 pfd₀ rfl
        have hsc0' : sc0 = some d := by simpa using hsc0
        subst hsc0'
        have hdgt : ¬ d ≤ idx := by omega
        obtain ⟨t2, hB, frame, mapc, closec⟩ :=
          ih scs (fdSet t idx (some ⟨o₀, false⟩)) (idx + 1) hlen'
            (by omega)
            (by
              intro j pfd hj
              obtain ⟨d', hsc', hcnt', o', ho'⟩ := hmap (j + 1) pfd hj
              refine ⟨d', hsc', hcnt', o', ?_⟩
              rw [fdGet_fdSet_ne t idx d' _ (by omega)]
              exact ho')
            (fun j pfd hj => hclose (j + 1) pfd hj)
        refine ⟨t2, ?_, ?_, ?_, ?_⟩
        · simp only [phaseB]
          rw [if_neg hdgt, ho₀]
          exact hB
        · intro fd hfd
          have h1 : fdGet t2 fd = fdGet (fdSet t idx (some ⟨o₀, false⟩)) fd := by
            apply frame
            simp at hfd ⊢
            omega
          rw [h1, fdGet_fdSet_ne t idx fd _ (by simp at hfd; omega)]
        · intro j pfd d' o c hj hscj hfd
          cases j with
          | zero =>
            have hd' : d' = d := (by simpa using hscj : d = d').symm
            subst hd'
            rw [ho₀] at hfd
            cases hfd
            have h1 : fdGet t2 (idx + 0) = fdGet (fdSet t idx (some ⟨o₀, false⟩)) (idx + 0) := by
              apply frame
              omega
            rw [h1]
            simpa using fdGet_fdSet_self t idx (some ⟨o₀, false⟩)
          | succ j =>
            obtain ⟨d'', hsc'', hcnt'', _⟩ := hmap (j + 1) pfd hj
            have hd'' : d'' = d' := by
              have : some (some d'') = some (some d') := by rw [← hsc'', hscj]
              simpa using this
            subst hd''
            have : fdGet t2 ((idx + 1) + j) = some ⟨o, false⟩ := by
              apply mapc j pfd d'' o c hj hscj
              rw [fdGet_fdSet_ne t idx d'' _ (by omega)]
              exact hfd
            rw [show idx + (j + 1) = (idx + 1) + j by omega]
            exact this
        · intro j pfd hj
          cases j with
          | zero => simp at hj
          | succ j =>
            have := closec j pfd hj
            rw [show idx + (j + 1) = (idx + 1) + j by omega]
            exact this
      | close =>
        have hsc0 : sc0 = none := by simpa using hclose 0 pfd₀ rfl
        subst hsc0
        obtain ⟨t2, hB, frame, mapc, closec⟩ :=
          ih scs (fdSet t idx none) (idx + 1) hlen'
            (by omega)
            (by
              intro j pfd hj
              obtain ⟨d', hsc', hcnt', o', ho'⟩ := hmap (j + 1) pfd hj
              refine ⟨d', hsc', hcnt', o', ?_⟩
              rw [fdGet_fdSet_ne t idx d' _ (by omega)]
              exact ho')
            (fun j pfd hj => hclose (j + 1) pfd hj)
        refine ⟨t2, hB, ?_, ?_, ?_⟩
        · intro fd hfd
          have h1 : fdGet t2 fd = fdGet (fdSet t idx none) fd := by
            apply frame
            simp at hfd ⊢
            omega
          rw [h1, fdGet_fdSet_ne t idx fd _ (by simp at hfd; omega)]
        · intro j pfd d' o c hj hscj hfd
          cases j with
          | zero => simp at hj
          | succ j =>
            obtain ⟨d'', hsc'', hcnt'', _⟩ := hmap (j + 1) pfd hj
            have hd'' : d'' = d' := by
              have : some (some d'') = some (some d') := by rw [← hsc'', hscj]
              simpa using this
            subst hd''
            have : fdGet t2 ((idx + 1) + j) = some ⟨o, false⟩ := by
              apply mapc j pfd d'' o c hj hscj
              rw [fdGet_fdSet_ne t idx d'' _ (by omega)]
              exact hfd
            rw [show idx + (j + 1) = (idx + 1) + j by omega]
            exact this
        · intro j pfd hj
          cases j with
          | zero =>
            have h1 : fdGet t2 (idx + 0) = fdGet (fdSet t idx none) (idx + 0) := by
              apply frame
              omega
            rw [h1]
            simpa using fdGet_fdSet_self t idx none
          | succ j =>
            have := closec j pfd hj
            rw [show idx + (j + 1) = (idx + 1) + j by omega]
            exact this

/-- Claim C1: two-phase fd remapping never clobbers a source before it is
consumed.  If phase A succeeds on an instruction list (with `count` equal to
the list length, as in `setup_and_execve_child`), then: every `map`
instruction's parent descriptor was duplicated onto some descriptor
`d ≥ count` with the close-on-exec flag set and recorded in its scratch slot;
every `close` instruction recorded `none` (the C `-1`); and phase B succeeds
and places at every child index `i` governed by `map pfd` a copy of the
open-file description that `pfd` held *before* phase A ran — in particular,
when `pfd = k < count`, the value placed at `i` is unaffected by the phase B
write at index `k`, since it is the original description of `k`. -/
theorem claim_c1 (instrs : List FdSetup) (t0 t1 : FdTable) (sc : List (Option Nat))
    (hA : phaseA instrs t0 instrs.length = some (t1, sc)) :
    (∀ j pfd, instrs.get? j = some ⟨FdKind.map, pfd⟩ →
      ∃ d, sc.get? j = some (some d) ∧ instrs.length ≤ d ∧
        ∃ o, fdGet t1 d = some ⟨o, true⟩)
    ∧ (∀ j pfd, instrs.get? j = some ⟨FdKind.close, pfd⟩ → sc.get? j = some none)
    ∧ ∃ t2, phaseB instrs sc t1 0 = some t2
        ∧ ∀ i pfd e, instrs.get? i = some ⟨FdKind.map, pfd⟩ → fdGet t0 pfd = some e →
            fdGet t2 i = some ⟨e.obj, false⟩ := by
  obtain ⟨L, P, M, C⟩ := phaseA_spec instrs.length t1 instrs t0 sc hA
  obtain ⟨t2, hB, frame, mapc, closec⟩ :=
    phaseB_spec instrs.length instrs sc t1 0 L (by omega)
      (fun j pfd hj => by
        obtain ⟨d, hsc, hcnt, hex, _⟩ := M j pfd hj
        exact ⟨d, hsc, hcnt, hex⟩)
      C
  refine ⟨fun j pfd hj => ?_, C, t2, hB, fun i pfd e hi he => ?_⟩
  · obtain ⟨d, hsc, hcnt, hex, _⟩ := M j pfd hj
    exact ⟨d, hsc, hcnt, hex⟩
  · obtain ⟨d, hsc, hcnt, hex, hcond⟩ := M i pfd hi
    have := mapc i pfd d e.obj true hi hsc (hcond e he)
    simpa using this

/-- Witness for C1: a two-instruction swap — child fd 0 becomes parent fd 1,
child fd 1 becomes parent fd 0 — where every parent descriptor is also a
target index.  Phase A stages them at descriptors 2 and 3, and phase B
delivers the original descriptions of fds 1 and 0 despite the overlap. -/
theorem claim_c1_witness :
    ∃ t2,
      phaseB [⟨FdKind.map, 1⟩, ⟨FdKind.map, 0⟩] [some 2, some 3]
        [some ⟨10, false⟩, some ⟨20, false⟩, some ⟨20, true⟩, some ⟨10, true⟩] 0 = some t2
      ∧ fdGet t2 0 = some ⟨20, false⟩ ∧ fdGet t2 1 = some ⟨10, false⟩ := by
  obtain ⟨-, -, t2, hB, hmap⟩ :=
    claim_c1 [⟨FdKind.map, 1⟩, ⟨FdKind.map, 0⟩]
      [some ⟨10, false⟩, some ⟨20, false⟩]
      [some ⟨10, false⟩, some ⟨20, false⟩, some ⟨20, true⟩, some ⟨10, true⟩]
      [some 2, some 3] (by decide)
  exact ⟨t2, hB, hmap 0 1 ⟨20, false⟩ rfl rfl, hmap 1 0 ⟨10, false⟩ rfl rfl⟩

theorem censusFrom_le : ∀ (t : FdTable) (i n : Nat) (e : FdEntry),
    fdGet t n = some e → i + n ≤ censusFrom t i := by
  intro t
  induction t with
  | nil =>
    intro i n e h
    rw [fdGet_nil] at h
    cases h
  | cons e0 t ih =>
    intro i n e h
    cases e0 with
    | none =>
      cases n with
      | zero => cases h
      | succ n =>
        have := ih (i + 1) n e h
        simp only [censusFrom]
        omega
    | some e1 =>
      cases n with
      | zero =>
        simp only [censusFrom]
        omega
      | succ n =>
        have := ih (i + 1) n e h
        simp only [censusFrom]
        omega

theorem censusFrom_attained : ∀ (t : FdTable) (i : Nat),
    censusFrom t i = 0 ∨ ∃ k e, censusFrom t i = i + k ∧ fdGet t k = some e := by
  intro t
  induction t with
  | nil => intro i; exact Or.inl rfl
  | cons e0 t ih =>
    intro i
    cases e0 with
    | none =>
      rcases ih (i + 1) with h0 | ⟨k, e, hk, he⟩
      · exact Or.inl (by simpa [censusFrom] using h0)
      · refine Or.inr ⟨k + 1, e, ?_, he⟩
        simp only [censusFrom]
        omega
    | some e1 =>
      rcases ih (i + 1) with h0 | ⟨k, e, hk, he⟩
      · refine Or.inr ⟨0, e1, ?_, rfl⟩
        simp only [censusFrom, h0]
        omega
      · refine Or.inr ⟨k + 1, e, ?_, he⟩
        simp only [censusFrom]
        omega

theorem le_censusOf (t : FdTable) (n : Nat) (e : FdEntry) (h : fdGet t n = some e) :
    n ≤ censusOf t := by
  simpa using censusFrom_le t 0 n e h

theorem censusOf_attained (t : FdTable) :
    censusOf t = 0 ∨ ∃ k e, censusOf t = k ∧ fdGet t k = some e := by
  simpa using censusFrom_attained t 0

/-- Closing a descriptor strictly below the census does not change the
census: the maximum is attained at some other (higher) open descriptor. -/
theorem censusOf_fdSet_none (t : FdTable) (j : Nat) (h : j < censusOf t) :
    censusOf (fdSet t j none) = censusOf t := by
  apply le_antisymm
  · rcases censusOf_attained (fdSet t j none) with h0 | ⟨k, e, hk, he⟩
    · omega
    · have hkj : j ≠ k := by
        intro heq
        rw [← heq, fdGet_fdSet_self] at he
        cases he
      rw [fdGet_fdSet_ne t j k none hkj] at he
      have := le_censusOf t k e he
      omega
  · rcases censusOf_attained t with h0 | ⟨k, e, hk, he⟩
    · omega
    · have hkj : j ≠ k := by omega
      have he' : fdGet (fdSet t j none) k = some e := by
        rw [fdGet_fdSet_ne t j k none hkj]; exact he
      have := le_censusOf (fdSet t j none) k e he'
      omega

/-- The close loop never opens a descriptor. -/
theorem fdGet_closeLoop_none (e : Nat) : ∀ (fuel : Nat) (t : FdTable) (i n : Nat),
    fdGet t n = none → fdGet (closeLoop t e i fuel) n = none := by
  intro fuel
  induction fuel with
  | zero => intro t i n h; exact h
  | succ fuel ih =>
    intro t i n h
    by_cases hc : i < censusOf t
    · simp only [closeLoop, if_pos hc]
      apply ih
      by_cases hie : i = e
      · simpa [hie] using h
      · simp only [if_neg hie]
        by_cases hni : i = n
        · rw [← hni, fdGet_fdSet_self]
        · rw [fdGet_fdSet_ne t i n none hni]; exact h
    · simpa only [closeLoop, if_neg hc] using h

/-- The close loop never touches the error pipe's descriptor. -/
theorem fdGet_closeLoop_errPipe (e : Nat) : ∀ (fuel : Nat) (t : FdTable) (i : Nat),
    fdGet (closeLoop t e i fuel) e = fdGet t e := by
  intro fuel
  induction fuel with
  | zero => intro t i; rfl
  | succ fuel ih =>
    intro t i
    by_cases hc : i < censusOf t
    · simp only [closeLoop, if_pos hc]
      by_cases hie : i = e
      · simpa [hie] using ih t (i + 1)
      · rw [ih, if_neg hie, fdGet_fdSet_ne t i e none hie]
    · simp only [closeLoop, if_neg hc]

/-- The close loop closes every descriptor in `[i, censusOf t)` other than
the error pipe, given enough fuel. -/
theorem closeLoop_closes (e : Nat) : ∀ (fuel : Nat) (t : FdTable) (i n : Nat),
    censusOf t < i + fuel → i ≤ n → n < censusOf t → n ≠ e →
    fdGet (closeLoop t e i fuel) n = none := by
  intro fuel
  induction fuel with
  | zero => intro t i n h1 h2 h3 _; omega
  | succ fuel ih =>
    intro t i n h1 h2 h3 hne
    have hc : i < censusOf t := by omega
    simp only [closeLoop, if_pos hc]
    have hcen : censusOf (if i = e then t else fdSet t i none) = censusOf t := by
      by_cases hie : i = e
      · simp [hie]
      · simpa only [if_neg hie] using censusOf_fdSet_none t i hc
    rcases Nat.eq_or_lt_of_le h2 with heq | hlt
    · subst heq
      rw [if_neg hne]
      apply fdGet_closeLoop_none
      exact fdGet_fdSet_self t i none
    · exact ih _ (i + 1) n (by omega) hlt (by omega) hne

set_option maxRecDepth 4000 in
/-- Claim C3 (as frozen) is false on the code: the loop condition is
`i < highest_possibly_open_fd()`, a strict bound, so the census value itself
— the highest descriptor that may be open — is never closed.  With fds 0
(the error pipe) and 3 open and one instruction, the census is 3, yet fd 3
is still open after the loop. -/
theorem claim_c3_counterexample :
    censusOf [some ⟨1, false⟩, none, none, some ⟨2, false⟩] = 3
    ∧ fdGet (closeOtherFds [some ⟨1, false⟩, none, none, some ⟨2, false⟩] 1 0) 3 =
        some ⟨2, false⟩ := by
  constructor
  · decide
  · decide

/-- Claim C3 (amended): when the close-all-unmanaged-descriptors flag is set,
the child routine closes every descriptor numbered from the instruction
count up to but *excluding* the fd-census upper bound, with the sole
exception of the error pipe's write end, which is left untouched. -/
theorem claim_c3 : ∀ (t : FdTable) (count errPipe n : Nat),
    (count ≤ n → n < censusOf t → n ≠ errPipe →
      fdGet (closeOtherFds t count errPipe) n = none)
    ∧ fdGet (closeOtherFds t count errPipe) errPipe = fdGet t errPipe := by
  intro t count e n
  refine ⟨fun h1 h2 h3 => ?_, ?_⟩
  · exact closeLoop_closes e (censusOf t + 1) t count n (by omega) h1 h2 h3
  · exact fdGet_closeLoop_errPipe e (censusOf t + 1) t count

set_option maxRecDepth 4000 in
/-- Witness for C3: on the counterexample table, descriptor 2 (inside the
half-open range, not the pipe) is closed and the error pipe survives. -/
theorem claim_c3_witness :
    fdGet (closeOtherFds [some ⟨1, false⟩, none, none, some ⟨2, false⟩] 1 0) 2 = none
    ∧ fdGet (closeOtherFds [some ⟨1, false⟩, none, none, some ⟨2, false⟩] 1 0) 0 =
        some ⟨1, false⟩ := by
  have h := claim_c3 [some ⟨1, false⟩, none, none, some ⟨2, false⟩] 1 0 2
  exact ⟨h.1 (by decide) (by decide) (by decide), h.2.trans (by decide)⟩

/-- A name starting with a dot is rejected by the strict parser. -/
theorem parse_cons_dot {c : Char} (hc : c.toNat = 46) (l : List Char) :
    positive_int_parse (c :: l) = -1 := by
  simp [positive_int_parse, positive_int_parse_go, isDigitChar, hc]

theorem dir_fold_nonneg : ∀ (entries : List (List Char)) (hi : Int), 0 ≤ hi →
    0 ≤ entries.foldl
        (fun hi name =>
          let number := positive_int_parse name
          if number > hi then number else hi) hi := by
  intro entries
  induction entries with
  | nil => intro hi h; simpa using h
  | cons name rest ih =>
    intro hi h
    rw [List.foldl_cons]
    apply ih
    show 0 ≤ if positive_int_parse name > hi then positive_int_parse name else hi
    split <;> omega

/-- The raw-read walk and the generic walk compute the same running maximum:
dot-initial names parse to -1 in the generic walk, so skipping them is
observationally identical (the running maximum is never negative). -/
theorem dir_fold_linux_eq : ∀ (entries : List (List Char)) (hi : Int), 0 ≤ hi →
    entries.foldl
      (fun hi name =>
        match name with
        | c :: _ =>
          if c.toNat = 46 then hi
          else
            let number := positive_int_parse name
            if number > hi then number else hi
        | [] =>
          let number := positive_int_parse name
          if number > hi then number else hi) hi
    = entries.foldl
      (fun hi name =>
        let number := positive_int_parse name
        if number > hi then number else hi) hi := by
  intro entries
  induction entries with
  | nil => intro hi _; rfl
  | cons name rest ih =>
    intro hi h
    rw [List.foldl_cons, List.foldl_cons]
    have hstep : (match name with
        | c :: _ =>
          if c.toNat = 46 then hi
          else
            let number := positive_int_parse name
            if number > hi then number else hi
        | [] =>
          let number := positive_int_parse name
          if number > hi then number else hi)
        = (let number := positive_int_parse name
           if number > hi then number else hi) := by
      cases name with
      | nil => rfl
      | cons c l =>
        show (if c.toNat = 46 then hi
              else
                let number := positive_int_parse (c :: l)
                if number > hi then number else hi)
            = (let number := positive_int_parse (c :: l)
               if number > hi then number else hi)
        by_cases hc : c.toNat = 46
        · rw [if_pos hc, parse_cons_dot hc l]
          show hi = if (-1 : Int) > hi then (-1 : Int) else hi
          rw [if_neg (by omega)]
        · rw [if_neg hc]
    rw [hstep]
    apply ih
    show 0 ≤ if positive_int_parse name > hi then positive_int_parse name else hi
    split <;> omega

/-- The generic walk computes the spec-side value: the maximum of the
starting value and the non-negative parser results. -/
theorem dir_fold_spec_eq : ∀ (entries : List (List Char)) (hi : Int), 0 ≤ hi →
    entries.foldl
      (fun hi name =>
        let number := positive_int_parse name
        if number > hi then number else hi) hi
    = ((entries.map positive_int_parse).filter (fun n => decide (0 ≤ n))).foldl max hi := by
  intro entries
  induction entries with
  | nil => intro hi _; rfl
  | cons name rest ih =>
    intro hi h
    have hcons : (name :: rest).foldl
        (fun hi name =>
          let number := positive_int_parse name
          if number > hi then number else hi) hi
      = rest.foldl
          (fun hi name =>
            let number := positive_int_parse name
            if number > hi then number else hi)
          (if positive_int_parse name > hi then positive_int_parse name else hi) := rfl
    rw [hcons]
    by_cases hp : (0 : Int) ≤ positive_int_parse name
    · have hfil : ((name :: rest).map positive_int_parse).filter (fun n => decide (0 ≤ n))
          = positive_int_parse name ::
              ((rest.map positive_int_parse).filter (fun n => decide (0 ≤ n))) := by
        simp [List.filter_cons, hp]
      rw [hfil]
      have hmax : (if positive_int_parse name > hi then positive_int_parse name else hi)
          = max hi (positive_int_parse name) := by
        rcases le_or_lt (positive_int_parse name) hi with hle | hgt
        · rw [if_neg (not_lt.mpr hle), max_eq_left hle]
        · rw [if_pos hgt, max_eq_right hgt.le]
      rw [hmax]
      have hfold : List.foldl max hi (positive_int_parse name ::
            ((rest.map positive_int_parse).filter (fun n => decide (0 ≤ n))))
          = List.foldl max (max hi (positive_int_parse name))
              ((rest.map positive_int_parse).filter (fun n => decide (0 ≤ n))) := rfl
      rw [hfold]
      exact ih (max hi (positive_int_parse name)) (le_trans h (le_max_left _ _))
    · have hfil : ((name :: rest).map positive_int_parse).filter (fun n => decide (0 ≤ n))
          = (rest.map positive_int_parse).filter (fun n => decide (0 ≤ n)) := by
        simp [List.filter_cons, hp]
      rw [hfil]
      have hni : (if positive_int_parse name > hi then positive_int_parse name else hi) = hi := by
        rw [if_neg (by omega)]
      rw [hni]
      exact ih hi h

/-- Claim C8: the generic fd-census directory walk and the restricted
raw-directory-read variant have identical semantics over every listing —
both compute the maximum over 0 and the non-negative strict-parse values of
the entry names, and both return the sentinel -1 when the directory cannot
be opened. -/
theorem claim_c8 : ∀ listing : Option (List (List Char)),
    highest_possibly_open_fd_dir_linux listing = highest_possibly_open_fd_dir listing
    ∧ highest_possibly_open_fd_dir listing = censusSpec listing := by
  intro listing
  cases listing with
  | none => exact ⟨rfl, rfl⟩
  | some entries =>
    exact ⟨dir_fold_linux_eq entries 0 le_rfl, dir_fold_spec_eq entries 0 le_rfl⟩

theorem highest_apple_eq (listing : Option (List (List Char))) (dt : Nat) :
    highest_possibly_open_fd OsPlatform.apple listing dt =
      (if highest_possibly_open_fd_dir listing < 0 then (dt : Int)
       else highest_possibly_open_fd_dir listing) := rfl

theorem highest_linux_eq (listing : Option (List (List Char))) (dt : Nat) :
    highest_possibly_open_fd OsPlatform.linux listing dt =
      (if highest_possibly_open_fd_dir_linux listing < 0 then (dt : Int)
       else highest_possibly_open_fd_dir_linux listing) := rfl

/-- Claim C9: the top-level fd census never fails — on every platform and
every listing outcome (including the failure sentinel) it returns a
non-negative bound, falling back to the descriptor-table-size limit when the
listing reports failure and to the constant 1024 on platforms with no
introspection mechanism. -/
theorem claim_c9 : ∀ (plat : OsPlatform) (listing : Option (List (List Char))) (dt : Nat),
    0 ≤ highest_possibly_open_fd plat listing dt
    ∧ (listing = none → plat ≠ OsPlatform.generic →
        highest_possibly_open_fd plat listing dt = (dt : Int))
    ∧ (plat = OsPlatform.generic → highest_possibly_open_fd plat listing dt = 1024) := by
  intro plat listing dt
  cases plat with
  | apple =>
    refine ⟨?_, fun hnone _ => ?_, fun h => by cases h⟩
    · rw [highest_apple_eq]
      rcases lt_or_ge (highest_possibly_open_fd_dir listing) 0 with hlt | hge
      · rw [if_pos hlt]; exact Int.natCast_nonneg dt
      · rw [if_neg (not_lt.mpr hge)]; exact hge
    · subst hnone
      rw [highest_apple_eq]
      norm_num [highest_possibly_open_fd_dir]
  | linux =>
    refine ⟨?_, fun hnone _ => ?_, fun h => by cases h⟩
    · rw [highest_linux_eq]
      rcases lt_or_ge (highest_possibly_open_fd_dir_linux listing) 0 with hlt | hge
      · rw [if_pos hlt]; exact Int.natCast_nonneg dt
      · rw [if_neg (not_lt.mpr hge)]; exact hge
    · subst hnone
      rw [highest_linux_eq]
      norm_num [highest_possibly_open_fd_dir_linux]
  | generic =>
    exact ⟨by norm_num [highest_possibly_open_fd], fun _ h => absurd rfl h, fun _ => rfl⟩

/-- Witness for C9: a failed listing falls back to the table-size limit on
Linux, and the no-introspection platform reports the constant. -/
theorem claim_c9_witness :
    highest_possibly_open_fd OsPlatform.linux none 7 = 7
    ∧ highest_possibly_open_fd OsPlatform.generic none 7 = 1024 :=
  ⟨(claim_c9 OsPlatform.linux none 7).2.1 rfl (by decide),
   (claim_c9 OsPlatform.generic none 7).2.2 rfl⟩

theorem guard_ret_eq (cur : SigSet) (calls : SigGuardCalls) :
    (block_everything_but_something_went_seriously_wrong_signals cur calls).ret
      = (calls.fillFail || calls.delFail SIGABRT || calls.delFail SIGBUS ||
        calls.delFail SIGFPE || calls.delFail SIGILL || calls.delFail SIGKILL ||
        calls.delFail SIGSEGV || calls.delFail SIGSTOP || calls.delFail SIGSYS ||
        calls.delFail SIGTRAP || calls.maskFail) := by
  unfold block_everything_but_something_went_seriously_wrong_signals
  split <;> rfl

/-- Claim C5: the guard builds a mask blocking every signal except exactly
the nine allow-listed ones (abort, bus error, floating-point trap, illegal
instruction, kill, segmentation fault, stop, bad syscall, trace trap),
installs it on the calling thread (via `SIG_BLOCK`, i.e. union with the
current blocked set), stores the previous mask in the caller-supplied slot,
and returns failure exactly when some mask-construction or
mask-installation primitive fails. -/
theorem claim_c5 : ∀ (cur : SigSet) (calls : SigGuardCalls),
    ((block_everything_but_something_went_seriously_wrong_signals cur calls).ret = false ↔
      calls.fillFail = false ∧ (∀ s ∈ seriouslyWrongSignals, calls.delFail s = false) ∧
        calls.maskFail = false)
    ∧ (∀ s, seriousMask s = true ↔ s ∉ seriouslyWrongSignals)
    ∧ (calls.maskFail = false →
        (block_everything_but_something_went_seriously_wrong_signals cur calls).blocked
            = sigBlockUnion cur seriousMask
          ∧ (block_everything_but_something_went_seriously_wrong_signals cur calls).oldSlot
            = some cur) := by
  intro cur calls
  refine ⟨?_, ?_, ?_⟩
  · rw [guard_ret_eq]
    simp only [Bool.or_eq_false_iff]
    constructor
    · rintro ⟨⟨⟨⟨⟨⟨⟨⟨⟨⟨h1, h2⟩, h3⟩, h4⟩, h5⟩, h6⟩, h7⟩, h8⟩, h9⟩, h10⟩, h11⟩
      refine ⟨h1, ?_, h11⟩
      intro s hs
      simp only [seriouslyWrongSignals, List.mem_cons, List.not_mem_nil, or_false] at hs
      rcases hs with rfl | rfl | rfl | rfl | rfl | rfl | rfl | rfl | rfl <;> assumption
    · rintro ⟨h1, h2, h3⟩
      refine ⟨⟨⟨⟨⟨⟨⟨⟨⟨⟨h1, ?_⟩, ?_⟩, ?_⟩, ?_⟩, ?_⟩, ?_⟩, ?_⟩, ?_⟩, ?_⟩, h3⟩ <;>
        exact h2 _ (by simp [seriouslyWrongSignals])
  · intro s
    constructor
    · intro hm hmem
      simp only [seriouslyWrongSignals, List.mem_cons, List.not_mem_nil, or_false] at hmem
      rcases hmem with rfl | rfl | rfl | rfl | rfl | rfl | rfl | rfl | rfl <;>
        exact absurd hm (by decide)
    · intro hmem
      simp only [seriouslyWrongSignals, List.mem_cons, List.not_mem_nil, or_false,
        not_or] at hmem
      obtain ⟨n1, n2, n3, n4, n5, n6, n7, n8, n9⟩ := hmem
      unfold seriousMask sigdelset sigfillset
      simp [n1, n2, n3, n4, n5, n6, n7, n8, n9]
  · intro hmf
    constructor
    · simp [block_everything_but_something_went_seriously_wrong_signals, hmf]
    · simp [block_everything_but_something_went_seriously_wrong_signals, hmf]

/-- Witness for C5: all primitives succeeding yields a zero return; the mask
blocks signal 2 (interrupt) but leaves signal 9 (kill) deliverable. -/
theorem claim_c5_witness :
    (block_everything_but_something_went_seriously_wrong_signals (fun _ => false)
        ⟨false, fun _ => false, false⟩).ret = false
    ∧ seriousMask 9 = false ∧ seriousMask 2 = true :=
  ⟨(claim_c5 (fun _ => false) ⟨false, fun _ => false, false⟩).1.mpr
      ⟨rfl, fun _ _ => rfl, rfl⟩,
   by decide, by decide⟩

theorem resetFrom_all_ok (oracle : Nat → SigCallRes) : ∀ (rem signo : Nat),
    (∀ s, signo ≤ s → s < signo + rem → oracle s = SigCallRes.ok) →
    resetFrom oracle signo rem =
      .ok ((List.range' signo rem).filter (fun s => decide (s ≠ SIGKILL ∧ s ≠ SIGSTOP))) := by
  intro rem
  induction rem with
  | zero => intro signo _; rfl
  | succ rem ih =>
    intro signo h
    rw [List.range'_succ, List.filter_cons]
    by_cases hks : signo = SIGKILL ∨ signo = SIGSTOP
    · rw [if_neg (by rcases hks with rfl | rfl <;> simp)]
      have hstep : resetFrom oracle signo (rem + 1) = resetFrom oracle (signo + 1) rem := by
        simp only [resetFrom, if_pos hks]
      rw [hstep]
      exact ih (signo + 1) (fun s h1 h2 => h s (by omega) (by omega))
    · rw [if_pos (by simpa using not_or.mp hks)]
      have ho : oracle signo = .ok := h signo le_rfl (by omega)
      simp only [resetFrom, if_neg hks, ho]
      rw [ih (signo + 1) (fun s h1 h2 => h s (by omega) (by omega))]

theorem resetFrom_until_inval (oracle : Nat → SigCallRes) (s₀ : Nat) : ∀ (rem signo : Nat),
    signo ≤ s₀ → s₀ < signo + rem →
    (∀ s, signo ≤ s → s < s₀ → oracle s = SigCallRes.ok) →
    ¬(s₀ = SIGKILL ∨ s₀ = SIGSTOP) →
    oracle s₀ = SigCallRes.errInval →
    resetFrom oracle signo rem =
      .ok ((List.range' signo (s₀ - signo)).filter
        (fun s => decide (s ≠ SIGKILL ∧ s ≠ SIGSTOP))) := by
  intro rem
  induction rem with
  | zero => intro signo h1 h2 _ _ _; omega
  | succ rem ih =>
    intro signo h1 h2 hpre hks hinv
    rcases Nat.eq_or_lt_of_le h1 with heq | hlt
    · subst heq
      simp only [resetFrom, if_neg hks, hinv]
      simp [Nat.sub_self]
    · by_cases hks0 : signo = SIGKILL ∨ signo = SIGSTOP
      · have hstep : resetFrom oracle signo (rem + 1) = resetFrom oracle (signo + 1) rem := by
          simp only [resetFrom, if_pos hks0]
        rw [hstep,
          ih (signo + 1) (by omega) (by omega)
            (fun s hs1 hs2 => hpre s (by omega) hs2) hks hinv]
        rw [show s₀ - signo = (s₀ - (signo + 1)) + 1 by omega, List.range'_succ,
          List.filter_cons, if_neg (by rcases hks0 with rfl | rfl <;> simp)]
      · have ho : oracle signo = .ok := hpre signo le_rfl hlt
        simp only [resetFrom, if_neg hks0, ho]
        rw [ih (signo + 1) (by omega) (by omega)
              (fun s hs1 hs2 => hpre s (by omega) hs2) hks hinv]
        rw [show s₀ - signo = (s₀ - (signo + 1)) + 1 by omega, List.range'_succ,
          List.filter_cons, if_pos (by simpa using not_or.mp hks0)]

theorem resetFrom_until_errOther (oracle : Nat → SigCallRes) (s₀ code : Nat) :
    ∀ (rem signo : Nat),
    signo ≤ s₀ → s₀ < signo + rem →
    (∀ s, signo ≤ s → s < s₀ → oracle s = SigCallRes.ok) →
    ¬(s₀ = SIGKILL ∨ s₀ = SIGSTOP) →
    oracle s₀ = SigCallRes.errOther code →
    resetFrom oracle signo rem =
      .error { pse_kind := PS_ERROR_KIND_SIGNAL, pse_code := code, pse_extra_info := s₀ } := by
  intro rem
  induction rem with
  | zero => intro signo h1 h2 _ _ _; omega
  | succ rem ih =>
    intro signo h1 h2 hpre hks herr
    rcases Nat.eq_or_lt_of_le h1 with heq | hlt
    · subst heq
      simp only [resetFrom, if_neg hks, herr]
    · by_cases hks0 : signo = SIGKILL ∨ signo = SIGSTOP
      · have hstep : resetFrom oracle signo (rem + 1) = resetFrom oracle (signo + 1) rem := by
          simp only [resetFrom, if_pos hks0]
        rw [hstep]
        exact ih (signo + 1) (by omega) (by omega)
          (fun s hs1 hs2 => hpre s (by omega) hs2) hks herr
      · have ho : oracle signo = .ok := hpre signo le_rfl hlt
        simp only [resetFrom, if_neg hks0, ho]
        rw [ih (signo + 1) (by omega) (by omega)
              (fun s hs1 hs2 => hpre s (by omega) hs2) hks herr]

/-- Claim C6: the child's signal-disposition reset iterates signal numbers
from 1 up to the platform maximum, skips exactly the two unchangeable
signals (kill and stop), treats an `EINVAL` rejection as an early, non-error
stop of the scan, and turns any other failure into a
`PS_ERROR_KIND_SIGNAL` SpawnError carrying the offending signal number and
its OS error code. -/
theorem claim_c6 : ∀ (oracle : Nat → SigCallRes) (s₀ code : Nat),
    ((∀ s, oracle s = SigCallRes.ok) →
      resetSignals oracle =
        .ok ((List.range' 1 (PS_SIG_MAX - 1)).filter
          (fun s => decide (s ≠ SIGKILL ∧ s ≠ SIGSTOP))))
    ∧ (1 ≤ s₀ → s₀ < PS_SIG_MAX → ¬(s₀ = SIGKILL ∨ s₀ = SIGSTOP) →
        (∀ s, s < s₀ → oracle s = SigCallRes.ok) → oracle s₀ = SigCallRes.errInval →
        resetSignals oracle =
          .ok ((List.range' 1 (s₀ - 1)).filter
            (fun s => decide (s ≠ SIGKILL ∧ s ≠ SIGSTOP))))
    ∧ (1 ≤ s₀ → s₀ < PS_SIG_MAX → ¬(s₀ = SIGKILL ∨ s₀ = SIGSTOP) →
        (∀ s, s < s₀ → oracle s = SigCallRes.ok) → oracle s₀ = SigCallRes.errOther code →
        resetSignals oracle =
          .error { pse_kind := PS_ERROR_KIND_SIGNAL, pse_code := code,
                   pse_extra_info := s₀ }) := by
  intro oracle s₀ code
  refine ⟨fun h => ?_, fun h1 h2 hks hpre hinv => ?_, fun h1 h2 hks hpre herr => ?_⟩
  · exact resetFrom_all_ok oracle (PS_SIG_MAX - 1) 1 (fun s _ _ => h s)
  · exact resetFrom_until_inval oracle s₀ (PS_SIG_MAX - 1) 1 h1 (by simp [PS_SIG_MAX] at h2 ⊢; omega)
      (fun s _ hs => hpre s hs) hks hinv
  · exact resetFrom_until_errOther oracle s₀ code (PS_SIG_MAX - 1) 1 h1
      (by simp [PS_SIG_MAX] at h2 ⊢; omega) (fun s _ hs => hpre s hs) hks herr

/-- Witness for C6: all calls succeeding resets exactly 1..31 minus kill and
stop; a non-`EINVAL` failure at signal 5 reports kind, code and signal. -/
theorem claim_c6_witness :
    resetSignals (fun s => if s = 5 then SigCallRes.errOther 22 else SigCallRes.ok) =
      .error { pse_kind := PS_ERROR_KIND_SIGNAL, pse_code := 22, pse_extra_info := 5 } :=
  (claim_c6 (fun s => if s = 5 then SigCallRes.errOther 22 else SigCallRes.ok) 5 22).2.2
    (by omega) (by decide) (by decide) (fun s hs => if_neg (by omega)) (if_pos rfl)

theorem errorCleanup_ret (hasOut : Bool) (e : PsError) (v : Nat) (slot : Option PsError)
    (h : errorCleanup hasOut e = SpawnResult.ret v slot) :
    v = 0 ∧ (hasOut = true → slot = some e ∧ e.pse_kind ≠ 0)
      ∧ (hasOut = false → slot = none) := by
  unfold errorCleanup at h
  by_cases hc : hasOut = true ∧ e.pse_kind = 0
  · rw [if_pos hc] at h; cases h
  · rw [if_neg hc] at h
    cases hOut : hasOut with
    | true =>
      subst hOut
      rw [if_pos rfl] at h
      cases h
      exact ⟨rfl, fun _ => ⟨rfl, fun hk => hc ⟨rfl, hk⟩⟩, fun hf => by cases hf⟩
    | false =>
      subst hOut
      rw [if_neg (by simp)] at h
      cases h
      refine ⟨rfl, fun ht => ?_, fun _ => rfl⟩
      cases ht

theorem drainLoop_ret (recSize pid : Nat) (hasOut : Bool) (hpid : 0 < pid) :
    ∀ (events : List ReadEvent) (v : Nat) (slot : Option PsError),
    drainLoop recSize pid hasOut events = SpawnResult.ret v slot →
    (v ≠ 0 → slot = none) ∧
      (v = 0 → (hasOut = true → ∃ e, slot = some e ∧ e.pse_kind ≠ 0)
        ∧ (hasOut = false → slot = none)) := by
  intro events
  induction events with
  | nil => intro v slot h; cases h
  | cons ev rest ih =>
    intro v slot h
    cases ev with
    | ok len rec =>
      cases len with
      | zero =>
        simp only [drainLoop] at h
        cases h
        exact ⟨fun _ => rfl, fun h0 => absurd h0 (by omega)⟩
      | succ len =>
        simp only [drainLoop] at h
        by_cases hlen : len + 1 = recSize
        · rw [if_pos hlen] at h
          obtain ⟨h0, hT, hF⟩ := errorCleanup_ret _ _ _ _ h
          subst h0
          exact ⟨fun hv => absurd rfl hv, fun _ => ⟨fun ht => ⟨rec, hT ht⟩, hF⟩⟩
        · rw [if_neg hlen] at h; cases h
    | err eintr code =>
      cases eintr with
      | true =>
        simp only [drainLoop] at h
        exact ih v slot h
      | false =>
        simp only [drainLoop] at h
        obtain ⟨h0, hT, hF⟩ := errorCleanup_ret _ _ _ _ h
        subst h0
        exact ⟨fun hv => absurd rfl hv, fun _ => ⟨fun ht => ⟨_, hT ht⟩, hF⟩⟩

/-- Claim C10: whenever `ps_spawn_process` returns (rather than trapping or
still blocking on `read`), either it returns a nonzero pid with the
caller's error slot untouched (the success path), or it returns 0 and — if
the caller supplied a slot — the slot holds an error whose kind is nonzero
(the `error_cleanup` precondition traps instead of returning otherwise);
this covers every failure path: pipe creation, pipe-flag configuration,
signal-guard installation, fork failure, mask restoration, a child error
record, and an error-pipe read failure. -/
theorem claim_c10 : ∀ (recSize : Nat) (o : OsOutcomes) (hasOut : Bool) (v : Nat)
    (slot : Option PsError),
    ps_spawn_process recSize o hasOut = SpawnResult.ret v slot →
    (v ≠ 0 → slot = none) ∧
      (v = 0 → (hasOut = true → ∃ e, slot = some e ∧ e.pse_kind ≠ 0)
        ∧ (hasOut = false → slot = none)) := by
  intro recSize o hasOut v slot h
  have hc : ∀ e : PsError, errorCleanup hasOut e = SpawnResult.ret v slot →
      (v ≠ 0 → slot = none) ∧
        (v = 0 → (hasOut = true → ∃ e, slot = some e ∧ e.pse_kind ≠ 0)
          ∧ (hasOut = false → slot = none)) := by
    intro e he
    obtain ⟨h0, hT, hF⟩ := errorCleanup_ret hasOut e v slot he
    subst h0
    exact ⟨fun hv => absurd rfl hv, fun _ => ⟨fun ht => ⟨e, hT ht⟩, hF⟩⟩
  obtain ⟨pipeErr, fcntlErr, guardErr, forkRes, restoreErr, readEvents⟩ := o
  simp only [ps_spawn_process] at h
  cases pipeErr with
  | some code => exact hc _ h
  | none =>
  cases fcntlErr with
  | some code => exact hc _ h
  | none =>
  cases guardErr with
  | some code => exact hc _ h
  | none =>
  cases restoreErr with
  | some code => exact hc _ h
  | none =>
  cases forkRes with
  | fail code => exact hc _ h
  | parent pid =>
    have h' : (if 0 < pid then drainLoop recSize pid hasOut readEvents
        else errorCleanup hasOut
          { pse_kind := PS_ERROR_KIND_FCNTL, pse_code := 0, pse_extra_info := 0 })
        = SpawnResult.ret v slot := h
    by_cases hp : 0 < pid
    · rw [if_pos hp] at h'
      exact drainLoop_ret recSize pid hasOut hp readEvents v slot h'
    · rw [if_neg hp] at h'
      exact hc _ h'

/-- Witness for C10: a failed `pipe` call with `errno` 5 and a supplied
error slot returns 0, the slot holding the pipe-kind error, whose kind the
claim theorem certifies nonzero. -/
theorem claim_c10_witness :
    ps_spawn_process 4 ⟨some 5, none, none, ForkRes.parent 1, none, []⟩ true
        = SpawnResult.ret 0 (some ⟨PS_ERROR_KIND_PIPE, 5, 0⟩)
    ∧ ∃ e, (some (PsError.mk PS_ERROR_KIND_PIPE 5 0) : Option PsError) = some e
        ∧ e.pse_kind ≠ 0 := by
  have h := claim_c10 4 ⟨some 5, none, none, ForkRes.parent 1, none, []⟩ true 0
    (some ⟨PS_ERROR_KIND_PIPE, 5, 0⟩) (by decide)
  exact ⟨by decide, (h.2 rfl).1 rfl⟩

/-- Claim C2: draining the error pipe in the parent branch — with the setup
calls succeeding and a positive child pid — behaves, for every read
outcome, as: a zero-length read returns the child's pid with no error; a
read of exactly one full record returns that SpawnError; a partial positive
read traps (`ps_precondition`); an `EINTR` failure retries transparently;
any other failure returns a `PS_ERROR_KIND_READ_FROM_CHILD` error. -/
theorem claim_c2 : ∀ (recSize pid : Nat) (rest : List ReadEvent) (rec : PsError) (code : Nat),
    0 < recSize → 0 < pid →
    (ps_spawn_process recSize (okOracle pid (ReadEvent.ok 0 rec :: rest)) true
        = SpawnResult.ret pid none)
    ∧ (rec.pse_kind ≠ 0 →
        ps_spawn_process recSize (okOracle pid (ReadEvent.ok recSize rec :: rest)) true
          = SpawnResult.ret 0 (some rec))
    ∧ (∀ len, 0 < len → len ≠ recSize →
        ps_spawn_process recSize (okOracle pid (ReadEvent.ok len rec :: rest)) true
          = SpawnResult.trap)
    ∧ (ps_spawn_process recSize (okOracle pid (ReadEvent.err true code :: rest)) true
        = ps_spawn_process recSize (okOracle pid rest) true)
    ∧ (ps_spawn_process recSize (okOracle pid (ReadEvent.err false code :: rest)) true
        = SpawnResult.ret 0
            (some ⟨PS_ERROR_KIND_READ_FROM_CHILD, code, 0⟩)) := by
  intro recSize pid rest rec code hrec hpid
  have hspawn : ∀ evs, ps_spawn_process recSize (okOracle pid evs) true
      = drainLoop recSize pid true evs := by
    intro evs
    simp only [ps_spawn_process, okOracle]
    rw [if_pos hpid]
  refine ⟨?_, ?_, ?_, ?_, ?_⟩
  · rw [hspawn]; rfl
  · intro hk
    rw [hspawn]
    obtain ⟨k, rfl⟩ : ∃ k, recSize = k + 1 := ⟨recSize - 1, by omega⟩
    show (if k + 1 = k + 1 then errorCleanup true rec else SpawnResult.trap)
        = SpawnResult.ret 0 (some rec)
    rw [if_pos rfl]
    unfold errorCleanup
    rw [if_neg (by simp [hk]), if_pos rfl]
  · intro len hl hne
    rw [hspawn]
    obtain ⟨m, rfl⟩ : ∃ m, len = m + 1 := ⟨len - 1, by omega⟩
    simp only [drainLoop]
    rw [if_neg hne]
  · rw [hspawn, hspawn]; rfl
  · rw [hspawn]
    simp only [drainLoop]
    unfold errorCleanup
    rw [if_neg (by simp [PS_ERROR_KIND_READ_FROM_CHILD]), if_pos rfl]

/-- Witness for C2: with record size 4, an end-of-file read returns pid 1
with an untouched slot; a full 4-byte read returns the child's record. -/
theorem claim_c2_witness :
    ps_spawn_process 4 (okOracle 1 [ReadEvent.ok 0 ⟨1, 2, 3⟩]) true = SpawnResult.ret 1 none
    ∧ ps_spawn_process 4 (okOracle 1 [ReadEvent.ok 4 ⟨1, 2, 3⟩]) true
        = SpawnResult.ret 0 (some ⟨1, 2, 3⟩) := by
  have h := claim_c2 4 1 [] ⟨1, 2, 3⟩ 7 (by omega) (by omega)
  exact ⟨h.1, h.2.1 (by decide)⟩

/-- Claim C7: the exit-status decoder is a pure function of the raw status
word — a word encoding normal termination with code `c` decodes to
`(exited, is-code, c)`; a word encoding termination by signal `sig` decodes
to `(exited, not-code, sig)`; every other word (stopped or continued)
decodes to `(not-exited, not-code, -1)`. -/
theorem claim_c7 : ∀ (w code sig : Nat),
    (code < 256 → ps_convert_exit_status (256 * code) =
      { has_exited := true, is_exit_code := true, code := (code : Int) })
    ∧ (w % 128 = sig → 1 ≤ sig → sig ≤ 126 →
        ps_convert_exit_status w =
          { has_exited := true, is_exit_code := false, code := (sig : Int) })
    ∧ (w % 128 = 127 →
        ps_convert_exit_status w =
          { has_exited := false, is_exit_code := false, code := -1 }) := by
  intro w code sig
  refine ⟨fun hcode => ?_, fun hsig h1 h126 => ?_, fun hstop => ?_⟩
  · have hm : 256 * code % 128 = 0 := by omega
    have hex : WIFEXITED (256 * code) = true := by
      unfold WIFEXITED
      rw [hm]
      rfl
    unfold ps_convert_exit_status
    rw [if_pos hex]
    have hq : WEXITSTATUS (256 * code) = code := by
      unfold WEXITSTATUS
      omega
    rw [hq]
  · have hex : ¬ WIFEXITED w = true := by
      unfold WIFEXITED
      simp only [beq_iff_eq, hsig]
      omega
    have hsg : WIFSIGNALED w = true := by
      unfold WIFSIGNALED
      simp only [Bool.and_eq_true, decide_eq_true_eq, hsig]
      omega
    unfold ps_convert_exit_status
    rw [if_neg hex, if_pos hsg]
    unfold WTERMSIG
    rw [hsig]
  · have hex : ¬ WIFEXITED w = true := by
      unfold WIFEXITED
      simp [hstop]
    have hsg : ¬ WIFSIGNALED w = true := by
      unfold WIFSIGNALED
      simp [hstop]
    unfold ps_convert_exit_status
    rw [if_neg hex, if_neg hsg]

/-- Witness for C7: a normal exit with code 0, termination by signal 9, and
a "stopped by signal 19" word. -/
theorem claim_c7_witness :
    ps_convert_exit_status 0 = ⟨true, true, 0⟩
    ∧ ps_convert_exit_status 9 = ⟨true, false, 9⟩
    ∧ ps_convert_exit_status (127 + 19 * 256) = ⟨false, false, -1⟩ :=
  ⟨(claim_c7 0 0 0).1 (by omega),
   (claim_c7 9 0 9).2.1 rfl (by omega) (by omega),
   (claim_c7 (127 + 19 * 256) 0 0).2.2 (by decide)⟩

end SpawnSync
